import Mathlib

/-!
# Verification of the crypto_derivatives services

A shallow embedding of the pure computational core of the repository's
services, together with theorems checking the natural-language specification
against it.

* `services/Enhanced_derivatives.py` — multi-venue funding-rate aggregation
  with a TTL cache, funding-anomaly detection and basis calculation.
* `services/enhanced_alerts.py` — alert rate limiting.
* `services/whale_tracker.py` — simulated whale-activity generation.
* `services/liquidation_tracker.py` — simulated liquidation data.

Modelling conventions:

* Python `float` values are modelled as `ℚ`; the code performs only field
  arithmetic and comparisons on them.
* Python timestamps (`datetime.now()`, `time.time()`) are modelled as `ℚ`
  values counting seconds.
* A Python `dict` with string keys is modelled as an insertion-ordered
  association list (`dictInsert`/`dictLookup` below).
* Calls into network libraries (`ccxt`, `aiohttp`) are modelled by explicit
  response parameters; `none` stands for a raised exception or a response
  without the needed field.
* `random.uniform`/`random.randint`/`random.choice` draws are modelled as
  explicit parameters, constrained by hypotheses to the intervals the code
  draws from.
-/

namespace CryptoDerivatives

/-! ## Python dicts as insertion-ordered association lists -/

/-- Python `d[k] = v` on a string-keyed dict: if the key is present its value
is replaced, keeping the key's insertion position; otherwise the pair is
appended at the end. -/
def dictInsert {α : Type} : List (String × α) → String → α → List (String × α)
  | [], k, v => [(k, v)]
  | p :: ps, k, v => if p.1 = k then (k, v) :: ps else p :: dictInsert ps k v

/-- Python `d.get(k)` / `d[k]` on a string-keyed dict. -/
def dictLookup {α : Type} : List (String × α) → String → Option α
  | [], _ => none
  | p :: ps, k => if p.1 = k then some p.2 else dictLookup ps k

theorem dictLookup_dictInsert_self {α : Type} (d : List (String × α)) (k : String) (v : α) :
    dictLookup (dictInsert d k v) k = some v := by
  induction d with
  | nil => simp [dictInsert, dictLookup]
  | cons p ps ih =>
    by_cases h : p.1 = k <;> simp [dictInsert, dictLookup, h, ih]

theorem dictLookup_dictInsert_ne {α : Type} (d : List (String × α)) (k k' : String) (v : α)
    (h : k' ≠ k) : dictLookup (dictInsert d k v) k' = dictLookup d k' := by
  have hkk : ¬(k = k') := fun h' => h h'.symm
  induction d with
  | nil => simp [dictInsert, dictLookup, hkk]
  | cons p ps ih =>
    by_cases hp : p.1 = k
    · subst hp
      simp [dictInsert, dictLookup, hkk]
    · simp [dictInsert, dictLookup, hp, ih]

theorem dictLookup_isSome_dictInsert {α : Type} (d : List (String × α)) (k k' : String) (v : α)
    (h : (dictLookup d k').isSome) : (dictLookup (dictInsert d k v) k').isSome := by
  by_cases hk : k' = k
  · subst hk; simp [dictLookup_dictInsert_self]
  · rw [dictLookup_dictInsert_ne d k k' v hk]; exact h

theorem mem_dictInsert {α : Type} (d : List (String × α)) (k : String) (v : α)
    (p : String × α) (h : p ∈ dictInsert d k v) : p ∈ d ∨ p = (k, v) := by
  induction d with
  | nil => simpa [dictInsert] using h
  | cons q qs ih =>
    by_cases hq : q.1 = k
    · simp only [dictInsert, hq, if_pos rfl] at h
      rcases List.mem_cons.mp h with h | h
      · exact Or.inr h
      · exact Or.inl (List.mem_cons_of_mem q h)
    · simp only [dictInsert, hq, if_neg hq] at h
      rcases List.mem_cons.mp h with h | h
      · exact Or.inl (h ▸ List.mem_cons_self q qs)
      · rcases ih h with h | h
        · exact Or.inl (List.mem_cons_of_mem q h)
        · exact Or.inr h

theorem dictInsert_of_lookup_none {α : Type} (d : List (String × α)) (k : String) (v : α)
    (h : dictLookup d k = none) : dictInsert d k v = d ++ [(k, v)] := by
  induction d with
  | nil => simp [dictInsert]
  | cons p ps ih =>
    by_cases hp : p.1 = k
    · simp [dictLookup, hp] at h
    · simp only [dictLookup, hp, if_neg hp] at h
      simp [dictInsert, hp, ih h]

theorem dictLookup_append_of_none {α : Type} (d₁ d₂ : List (String × α)) (k : String)
    (h : dictLookup d₁ k = none) : dictLookup (d₁ ++ d₂) k = dictLookup d₂ k := by
  induction d₁ with
  | nil => simp
  | cons p ps ih =>
    by_cases hp : p.1 = k
    · simp [dictLookup, hp] at h
    · simp only [dictLookup, hp, if_neg hp] at h
      simpa [dictLookup, hp] using ih h

/-! ## The TTL cache of `EnhancedDerivativesService` -/

/-- One entry of `self._cache`: the dict `{'data': …, 'timestamp': …}`
written by `_set_cache`. -/
structure CacheEntry (α : Type) where
  data : α
  timestamp : ℚ

/-- `self._cache`, a dict from cache key to entry. -/
abbrev CacheState (α : Type) : Type := List (String × CacheEntry α)

/-- `self._cache_ttl = 60  # seconds`. -/
def cache_ttl : ℤ := 60

/-- The `seconds` attribute of a Python `timedelta` holding `e` seconds.
Python normalises a timedelta into days, seconds and microseconds with
`0 ≤ seconds < 86400`, so the attribute is `⌊e⌋ % 86400` — the elapsed time
modulo one day, not the total elapsed time.  `_is_cache_valid` compares this
attribute against the TTL. -/
def timedeltaSeconds (e : ℚ) : ℤ := ⌊e⌋ % 86400

/-- `_get_cache_key(method, *args) = f"{method}:{':'.join(map(str, args))}"`. -/
def get_cache_key (method : String) (args : List String) : String :=
  method ++ ":" ++ String.intercalate ":" args

/-- `_is_cache_valid`: the key is present and
`(datetime.now() - entry['timestamp']).seconds < self._cache_ttl`. -/
def is_cache_valid {α : Type} (cache : CacheState α) (now : ℚ) (key : String) : Bool :=
  match dictLookup cache key with
  | none => false
  | some entry => timedeltaSeconds (now - entry.timestamp) < cache_ttl

/-- `_get_cached_data`: the stored `'data'` field if the entry is valid,
else `None`. -/
def get_cached_data {α : Type} (cache : CacheState α) (now : ℚ) (key : String) : Option α :=
  if is_cache_valid cache now key then (dictLookup cache key).map (·.data) else none

/-- `_set_cache`: store `{'data': data, 'timestamp': datetime.now()}` under
the key. -/
def set_cache {α : Type} (cache : CacheState α) (now : ℚ) (key : String) (data : α) :
    CacheState α :=
  dictInsert cache key ⟨data, now⟩

/-! ## Funding-rate fetching with fallback venues -/

/-- The keys of `self.exchanges`, in dict insertion order — the fixed venue
priority order of every fallback loop. -/
def exchangeNames : List String := ["binance", "bybit", "okx"]

/-- Python truthiness of `rate and rate.get('fundingRate')` in
`_get_funding_rate_for_coin`: `none` models a raised exception, a falsy
response dict or a missing/`None` `fundingRate` field; a rate of exactly `0`
is falsy as well and hence unusable. -/
def usableRate : Option ℚ → Bool
  | none => false
  | some r => if r = 0 then false else true

/-- The venue loop of `_get_funding_rate_for_coin` over a list of remaining
exchange names: on a usable response return `rate['fundingRate'] * 100`,
otherwise continue; `0.0` once every venue is exhausted. -/
def fundingFallback (attempt : String → Option ℚ) : List String → ℚ
  | [] => 0
  | e :: rest =>
    match attempt e with
    | some r => if r = 0 then fundingFallback attempt rest else r * 100
    | none => fundingFallback attempt rest

/-- `_get_funding_rate_for_coin`: try the configured venues in priority
order.  `attempt e` is the outcome of `exchange.fetch_funding_rate` on venue
`e` (the per-venue symbol formatting does not affect the result value and is
not modelled). -/
def get_funding_rate_for_coin (attempt : String → Option ℚ) : ℚ :=
  fundingFallback attempt exchangeNames

theorem fundingFallback_all_unusable (attempt : String → Option ℚ) :
    ∀ es : List String, (∀ e ∈ es, usableRate (attempt e) = false) →
      fundingFallback attempt es = 0 := by
  intro es
  induction es with
  | nil => intro _; rfl
  | cons e rest ih =>
    intro h
    have he := h e (List.mem_cons_self e rest)
    have hrest := fun e' he' => h e' (List.mem_cons_of_mem e he')
    cases hae : attempt e with
    | none => simpa [fundingFallback, hae] using ih hrest
    | some r =>
      rw [hae] at he
      by_cases hr : r = 0
      · simpa [fundingFallback, hae, hr] using ih hrest
      · simp [usableRate, hr] at he

theorem fundingFallback_first_usable (attempt : String → Option ℚ)
    (l₁ l₂ : List String) (e : String) (r : ℚ)
    (h₁ : ∀ e' ∈ l₁, usableRate (attempt e') = false)
    (he : attempt e = some r) (hr : r ≠ 0) :
    fundingFallback attempt (l₁ ++ e :: l₂) = r * 100 := by
  induction l₁ with
  | nil => simp [fundingFallback, he, hr]
  | cons e' rest ih =>
    have he' := h₁ e' (List.mem_cons_self e' rest)
    have hrest := fun x hx => h₁ x (List.mem_cons_of_mem e' hx)
    cases hae : attempt e' with
    | none => simpa [fundingFallback, hae] using ih hrest
    | some r' =>
      rw [hae] at he'
      by_cases hr' : r' = 0
      · simpa [fundingFallback, hae, hr'] using ih hrest
      · simp [usableRate, hr'] at he'

/-- C2: with every configured venue failing, the per-asset fetch returns the
default `0.0`; being a total function, it can never raise. -/
theorem all_venues_fail_returns_zero (attempt : String → Option ℚ)
    (h : ∀ e ∈ exchangeNames, usableRate (attempt e) = false) :
    get_funding_rate_for_coin attempt = 0 :=
  fundingFallback_all_unusable attempt exchangeNames h

/-- C2 witness: every venue raising an exception yields `0.0`. -/
theorem all_venues_fail_returns_zero_witness :
    get_funding_rate_for_coin (fun _ => none) = 0 :=
  all_venues_fail_returns_zero (fun _ => none) (by intro e _; rfl)

/-! ## The multi-coin aggregator `get_multi_coin_funding_rates` -/

/-- `self.supported_coins`. -/
def supported_coins : List String :=
  ["BTC", "ETH", "SOL", "AVAX", "MATIC", "ARB", "OP", "DOGE",
   "ADA", "DOT", "LINK", "UNI", "AAVE", "COMP", "MKR", "SNX",
   "CRV", "SUSHI", "YFI", "BAL", "REN", "KNC", "ZRX", "BAND",
   "ALGO", "ATOM", "NEAR", "FTM", "LUNA", "ICP", "VET", "TRX",
   "EOS", "XTZ", "THETA", "FIL", "EGLD", "HBAR", "FLOW", "MANA",
   "XRP", "LTC", "BCH", "ETC", "XLM", "DASH", "ZEC", "XMR"]

/-- `batch_size = 5`. -/
def batch_size : ℕ := 5

/-- The batching loop `for i in range(0, len(coins), batch_size)`: the list
of slices `coins[i:i+5]`. -/
def batchLoop {α : Type} : List α → List (List α)
  | [] => []
  | x :: xs => (x :: xs.take (batch_size - 1)) :: batchLoop (xs.drop (batch_size - 1))
termination_by l => l.length
decreasing_by simp [List.length_drop]; omega

theorem batchLoop_flatten {α : Type} : ∀ l : List α, (batchLoop l).flatten = l := by
  have key : ∀ (n : ℕ) (l : List α), l.length ≤ n → (batchLoop l).flatten = l := by
    intro n
    induction n with
    | zero =>
      intro l hl
      have : l = [] := List.eq_nil_of_length_eq_zero (Nat.le_zero.mp hl)
      subst this; simp [batchLoop]
    | succ n ih =>
      intro l hl
      cases l with
      | nil => simp [batchLoop]
      | cons x xs =>
        rw [batchLoop]
        have hlen : (xs.drop (batch_size - 1)).length ≤ n := by
          simp only [List.length_drop]
          simp only [List.length_cons] at hl
          omega
        simp only [List.flatten_cons, ih _ hlen, List.cons_append]
        rw [List.take_append_drop]
  intro l; exact key l.length l rfl.le

/-- A funding-rates result dict, coin → rate. -/
abbrev FundingDict : Type := List (String × ℚ)

/-- One iteration of the per-coin loop in `get_multi_coin_funding_rates`
(lines 102–110): skip unsupported coins, otherwise fetch and store the rate.
The second component counts the per-coin remote fetch sequences issued. -/
def fundingStep (attempt : String → String → Option ℚ) (acc : FundingDict × ℕ)
    (coin : String) : FundingDict × ℕ :=
  if coin ∈ supported_coins then
    (dictInsert acc.1 coin (get_funding_rate_for_coin (attempt coin)), acc.2 + 1)
  else acc

/-- The cache-miss body of `get_multi_coin_funding_rates` (lines 95–111):
iterate over the batches of `coins`, fetching each supported coin.
`attempt coin venue` is the venue response for that coin. -/
def fetchFundingRates (attempt : String → String → Option ℚ) (coins : List String) :
    FundingDict × ℕ :=
  ((batchLoop coins).flatten).foldl (fundingStep attempt) ([], 0)

/-- `get_multi_coin_funding_rates` (lines 88–113): serve a truthy (non-empty)
valid cached dict; otherwise compute, cache and return.  Result: the returned
dict, the updated cache, and the number of per-coin remote fetch sequences
issued. -/
def get_multi_coin_funding_rates (attempt : String → String → Option ℚ)
    (coins : List String) (cache : CacheState FundingDict) (now : ℚ) :
    FundingDict × CacheState FundingDict × ℕ :=
  let key := get_cache_key "funding_rates" (coins.mergeSort (fun a b => decide (a ≤ b)))
  match get_cached_data cache now key with
  | some d =>
    if d.isEmpty then
      let r := fetchFundingRates attempt coins
      (r.1, set_cache cache now key r.1, r.2)
    else (d, cache, 0)
  | none =>
    let r := fetchFundingRates attempt coins
    (r.1, set_cache cache now key r.1, r.2)

theorem foldl_fundingStep_keys (attempt : String → String → Option ℚ) :
    ∀ (coins : List String) (acc : FundingDict) (n : ℕ), coins.Nodup →
      (∀ c ∈ coins, dictLookup acc c = none) →
      (coins.foldl (fundingStep attempt) (acc, n)).1.map Prod.fst
        = acc.map Prod.fst ++ coins.filter (fun c => c ∈ supported_coins) := by
  intro coins
  induction coins with
  | nil => intro acc n _ _; simp
  | cons c rest ih =>
    intro acc n hnodup hdisj
    have hc : dictLookup acc c = none := hdisj c (List.mem_cons_self c rest)
    have hnodup' : rest.Nodup := (List.nodup_cons.mp hnodup).2
    have hcrest : c ∉ rest := (List.nodup_cons.mp hnodup).1
    by_cases hsup : c ∈ supported_coins
    · have hstep : fundingStep attempt (acc, n) c
          = (acc ++ [(c, get_funding_rate_for_coin (attempt c))], n + 1) := by
        simp [fundingStep, hsup, dictInsert_of_lookup_none _ _ _ hc]
      have hdisj' : ∀ c' ∈ rest,
          dictLookup (acc ++ [(c, get_funding_rate_for_coin (attempt c))]) c' = none := by
        intro c' hc'
        have hne : c' ≠ c := fun h => hcrest (h ▸ hc')
        rw [dictLookup_append_of_none _ _ _ (hdisj c' (List.mem_cons_of_mem c hc'))]
        simp [dictLookup, hne.symm]
      rw [List.foldl_cons, hstep, ih _ _ hnodup' hdisj']
      simp [hsup]
    · have hstep : fundingStep attempt (acc, n) c = (acc, n) := by
        simp [fundingStep, hsup]
      rw [List.foldl_cons, hstep, ih _ _ hnodup' (fun c' hc' => hdisj c' (List.mem_cons_of_mem c hc'))]
      simp [hsup]

/-- C1: on a cache miss, the returned mapping's keys are exactly the
requested coins that are in the supported registry, in request order —
unsupported coins silently dropped, supported ones never omitted, for every
possible pattern of venue responses. -/
theorem funding_rates_keys_exact (attempt : String → String → Option ℚ)
    (coins : List String) (cache : CacheState FundingDict) (now : ℚ)
    (hnodup : coins.Nodup)
    (hmiss : is_cache_valid cache now
      (get_cache_key "funding_rates" (coins.mergeSort (fun a b => decide (a ≤ b)))) = false) :
    (get_multi_coin_funding_rates attempt coins cache now).1.map Prod.fst
      = coins.filter (fun c => c ∈ supported_coins) := by
  have hnone : get_cached_data cache now
      (get_cache_key "funding_rates" (coins.mergeSort (fun a b => decide (a ≤ b)))) = none := by
    rw [get_cached_data, hmiss]; rfl
  rw [get_multi_coin_funding_rates]
  simp only [hnone]
  have : (fetchFundingRates attempt coins).1.map Prod.fst
      = coins.filter (fun c => c ∈ supported_coins) := by
    rw [fetchFundingRates, batchLoop_flatten]
    simpa using foldl_fundingStep_keys attempt coins [] 0 hnodup (fun _ _ => rfl)
  simpa using this

/-- C1 witness: requesting `["BTC", "NOPE", "ETH"]` on an empty cache with
all venues failing yields exactly the keys `["BTC", "ETH"]`. -/
theorem funding_rates_keys_exact_witness :
    (get_multi_coin_funding_rates (fun _ _ => none) ["BTC", "NOPE", "ETH"] [] 0).1.map Prod.fst
      = ["BTC", "ETH"] := by
  rw [funding_rates_keys_exact (fun _ _ => none) ["BTC", "NOPE", "ETH"] [] 0
    (by decide) (by rfl)]
  decide

/-! ## Cache idempotence of the aggregator -/

theorem length_le_dictInsert {α : Type} (d : List (String × α)) (k : String) (v : α) :
    d.length ≤ (dictInsert d k v).length := by
  induction d with
  | nil => simp [dictInsert]
  | cons p ps ih =>
    by_cases hp : p.1 = k
    · simp [dictInsert, hp]
    · simp only [dictInsert, if_neg hp, List.length_cons]
      omega

theorem dictInsert_ne_nil {α : Type} (d : List (String × α)) (k : String) (v : α) :
    dictInsert d k v ≠ [] := by
  cases d with
  | nil => simp [dictInsert]
  | cons p ps =>
    by_cases hp : p.1 = k <;> simp [dictInsert, hp]

theorem length_le_foldl_fundingStep (attempt : String → String → Option ℚ) :
    ∀ (l : List String) (acc : FundingDict) (n : ℕ),
      acc.length ≤ (l.foldl (fundingStep attempt) (acc, n)).1.length := by
  intro l
  induction l with
  | nil => intro acc n; simp
  | cons c rest ih =>
    intro acc n
    by_cases hsup : c ∈ supported_coins
    · calc acc.length
          ≤ (dictInsert acc c (get_funding_rate_for_coin (attempt c))).length :=
            length_le_dictInsert acc c _
        _ ≤ _ := by
            have := ih (dictInsert acc c (get_funding_rate_for_coin (attempt c))) (n + 1)
            simpa [fundingStep, hsup] using this
    · simpa [fundingStep, hsup] using ih acc n

theorem foldl_fundingStep_eq_nil (attempt : String → String → Option ℚ) :
    ∀ (l : List String) (acc : FundingDict) (n : ℕ),
      (l.foldl (fundingStep attempt) (acc, n)).1 = [] → ∀ c ∈ l, c ∉ supported_coins := by
  intro l
  induction l with
  | nil => intro acc n _ c hc; cases hc
  | cons c rest ih =>
    intro acc n h c' hc'
    by_cases hsup : c ∈ supported_coins
    · exfalso
      have h1 : (rest.foldl (fundingStep attempt)
          (dictInsert acc c (get_funding_rate_for_coin (attempt c)), n + 1)).1 = [] := by
        simpa [fundingStep, hsup] using h
      have h2 := length_le_foldl_fundingStep attempt rest
        (dictInsert acc c (get_funding_rate_for_coin (attempt c))) (n + 1)
      rw [h1] at h2
      exact dictInsert_ne_nil acc c _ (List.eq_nil_of_length_eq_zero (Nat.le_zero.mp h2))
    · have h1 : (rest.foldl (fundingStep attempt) (acc, n)).1 = [] := by
        simpa [fundingStep, hsup] using h
      rcases List.mem_cons.mp hc' with rfl | hc'
      · exact hsup
      · exact ih acc n h1 c' hc'

theorem foldl_fundingStep_of_unsupported (attempt : String → String → Option ℚ) :
    ∀ (l : List String) (acc : FundingDict) (n : ℕ),
      (∀ c ∈ l, c ∉ supported_coins) → l.foldl (fundingStep attempt) (acc, n) = (acc, n) := by
  intro l
  induction l with
  | nil => intro acc n _; rfl
  | cons c rest ih =>
    intro acc n h
    have hc := h c (List.mem_cons_self c rest)
    have hstep : fundingStep attempt (acc, n) c = (acc, n) := by simp [fundingStep, hc]
    rw [List.foldl_cons, hstep, ih acc n (fun c' hc' => h c' (List.mem_cons_of_mem c hc'))]

theorem fetchFundingRates_of_nil (attempt₁ attempt₂ : String → String → Option ℚ)
    (coins : List String) (h : (fetchFundingRates attempt₁ coins).1 = []) :
    fetchFundingRates attempt₂ coins = ([], 0) := by
  rw [fetchFundingRates, batchLoop_flatten] at h ⊢
  exact foldl_fundingStep_of_unsupported attempt₂ coins [] 0
    (foldl_fundingStep_eq_nil attempt₁ coins [] 0 h)

theorem get_multi_of_miss (attempt : String → String → Option ℚ) (coins : List String)
    (cache : CacheState FundingDict) (now : ℚ)
    (hmiss : is_cache_valid cache now
      (get_cache_key "funding_rates" (coins.mergeSort (fun a b => decide (a ≤ b)))) = false) :
    get_multi_coin_funding_rates attempt coins cache now
      = ((fetchFundingRates attempt coins).1,
         set_cache cache now
           (get_cache_key "funding_rates" (coins.mergeSort (fun a b => decide (a ≤ b))))
           (fetchFundingRates attempt coins).1,
         (fetchFundingRates attempt coins).2) := by
  have hnone : get_cached_data cache now
      (get_cache_key "funding_rates" (coins.mergeSort (fun a b => decide (a ≤ b)))) = none := by
    rw [get_cached_data, hmiss]; rfl
  rw [get_multi_coin_funding_rates]
  simp only [hnone]

theorem is_cache_valid_set_cache {α : Type} (cache : CacheState α) (key : String) (d : α)
    (t₁ t₂ : ℚ) (h₁ : t₁ ≤ t₂) (h₂ : t₂ - t₁ < 60) :
    is_cache_valid (set_cache cache t₁ key d) t₂ key = true := by
  rw [is_cache_valid, set_cache, dictLookup_dictInsert_self]
  have he : (0 : ℚ) ≤ t₂ - t₁ := by linarith
  have hfl0 : 0 ≤ ⌊t₂ - t₁⌋ := Int.floor_nonneg.mpr he
  have hfl : ⌊t₂ - t₁⌋ < 60 := by
    rw [Int.floor_lt]
    exact_mod_cast h₂
  simp only [timedeltaSeconds, cache_ttl]
  apply decide_eq_true
  rw [Int.emod_eq_of_lt hfl0 (by omega)]
  exact hfl

theorem get_cached_data_set_cache {α : Type} (cache : CacheState α) (key : String) (d : α)
    (t₁ t₂ : ℚ) (h₁ : t₁ ≤ t₂) (h₂ : t₂ - t₁ < 60) :
    get_cached_data (set_cache cache t₁ key d) t₂ key = some d := by
  rw [get_cached_data, is_cache_valid_set_cache cache key d t₁ t₂ h₁ h₂]
  rw [if_pos rfl, set_cache, dictLookup_dictInsert_self]
  rfl

/-- C7: two calls to the aggregator within one TTL window (the first call
missing the cache, the second following within 60 s) — the second call
issues no remote fetches and returns the first call's result, whatever the
venues would have answered the second time. -/
theorem funding_rates_cache_idempotent (attempt₁ attempt₂ : String → String → Option ℚ)
    (coins : List String) (cache : CacheState FundingDict) (t₁ t₂ : ℚ)
    (hmiss : is_cache_valid cache t₁
      (get_cache_key "funding_rates" (coins.mergeSort (fun a b => decide (a ≤ b)))) = false)
    (h₁₂ : t₁ ≤ t₂) (hlt : t₂ - t₁ < 60) :
    (get_multi_coin_funding_rates attempt₂ coins
        (get_multi_coin_funding_rates attempt₁ coins cache t₁).2.1 t₂).1
      = (get_multi_coin_funding_rates attempt₁ coins cache t₁).1
    ∧ (get_multi_coin_funding_rates attempt₂ coins
        (get_multi_coin_funding_rates attempt₁ coins cache t₁).2.1 t₂).2.2 = 0 := by
  have h₁ := get_multi_of_miss attempt₁ coins cache t₁ hmiss
  rw [h₁]
  have hhit := get_cached_data_set_cache cache
    (get_cache_key "funding_rates" (coins.mergeSort (fun a b => decide (a ≤ b))))
    (fetchFundingRates attempt₁ coins).1 t₁ t₂ h₁₂ hlt
  rw [get_multi_coin_funding_rates]
  simp only [hhit]
  cases hd : (fetchFundingRates attempt₁ coins).1 with
  | nil =>
    have hflat := fetchFundingRates_of_nil attempt₁ attempt₂ coins hd
    simp [hflat]
  | cons p ps => simp

/-- C7 witness: a concrete pair of calls 30 s apart on an initially empty
cache; all venues answer `0.01` for the first call and fail for the second,
yet the second call returns the first result with no remote fetches. -/
theorem funding_rates_cache_idempotent_witness :
    (get_multi_coin_funding_rates (fun _ _ => none) ["BTC"]
        (get_multi_coin_funding_rates (fun _ _ => some (1/100)) ["BTC"] [] 0).2.1 30).1
      = (get_multi_coin_funding_rates (fun _ _ => some (1/100)) ["BTC"] [] 0).1
    ∧ (get_multi_coin_funding_rates (fun _ _ => none) ["BTC"]
        (get_multi_coin_funding_rates (fun _ _ => some (1/100)) ["BTC"] [] 0).2.1 30).2.2 = 0 :=
  funding_rates_cache_idempotent (fun _ _ => some (1/100)) (fun _ _ => none) ["BTC"] [] 0 30
    (by rfl) (by norm_num) (by norm_num)

/-- C3: the code's `_is_cache_valid` compares `timedelta.seconds` — the
elapsed time modulo one day — against the TTL, so an entry written at time
`0` is served again at time `86400` (one full day later), although
`now - set_time = 86400 ≥ 60 = ttl_seconds`: the entry does not behave as
absent at every time at or after `set_time + ttl_seconds`. -/
theorem cache_entry_valid_again_after_one_day :
    get_cached_data (set_cache ([] : CacheState ℚ) 0 "funding_rates:BTC" 42) 86400
        "funding_rates:BTC" = some 42
      ∧ (86400 : ℚ) - 0 ≥ 60 := by
  constructor
  · rw [get_cached_data, set_cache]
    have hvalid : is_cache_valid (dictInsert ([] : CacheState ℚ) "funding_rates:BTC" ⟨42, 0⟩)
        86400 "funding_rates:BTC" = true := by
      rw [is_cache_valid, dictLookup_dictInsert_self]
      simp only [timedeltaSeconds, cache_ttl]
      apply decide_eq_true
      norm_num
    rw [hvalid, if_pos rfl, dictLookup_dictInsert_self]
    rfl
  · norm_num

/-! ## C4: fallback ordering -/

/-- A venue response pattern where the primary venue answers with the
non-null funding rate `0.0` and the secondary with `0.015`. -/
def attemptZeroPrimary : String → Option ℚ :=
  fun e => if e = "binance" then some 0 else if e = "bybit" then some (3/200) else none

/-- C4 counterexample: the primary venue returns the non-null value `0.0`,
yet the loop does not stop there — Python truthiness treats `0.0` as
unusable, so the secondary's rate (`0.015 * 100 = 1.5`) is returned
instead of `0.0 * 100 = 0`. -/
theorem fallback_skips_nonnull_zero :
    attemptZeroPrimary "binance" = some 0
    ∧ get_funding_rate_for_coin attemptZeroPrimary = 3/2
    ∧ (3/2 : ℚ) ≠ 0 * 100 := by
  refine ⟨rfl, ?_, by norm_num⟩
  have h := fundingFallback_first_usable attemptZeroPrimary ["binance"] ["okx"] "bybit" (3/200)
    (by intro e' he'; simp only [List.mem_singleton] at he'; subst he'; rfl)
    (by rfl) (by norm_num)
  rw [get_funding_rate_for_coin, exchangeNames]
  rw [show (["binance", "bybit", "okx"] : List String)
      = ["binance"] ++ "bybit" :: ["okx"] from rfl, h]
  norm_num

/-- C4 amended: the per-asset fetch tries the venues in the fixed configured
priority order and stops at the first venue whose response is *truthy*
(non-null and non-zero), returning that rate times 100; on any per-venue
failure or untruthy response it continues, so a failing primary with a
succeeding secondary yields the secondary's normalised value. -/
theorem fallback_stops_at_first_truthy :
    (∀ (attempt : String → Option ℚ) (l₁ l₂ : List String) (e : String) (r : ℚ),
      (∀ e' ∈ l₁, usableRate (attempt e') = false) → attempt e = some r → r ≠ 0 →
      fundingFallback attempt (l₁ ++ e :: l₂) = r * 100)
    ∧ ∀ (attempt : String → Option ℚ) (r : ℚ),
      usableRate (attempt "binance") = false → attempt "bybit" = some r → r ≠ 0 →
      get_funding_rate_for_coin attempt = r * 100 := by
  constructor
  · exact fundingFallback_first_usable
  · intro attempt r h₁ he hr
    have h := fundingFallback_first_usable attempt ["binance"] ["okx"] "bybit" r
      (by intro e' he'; simp only [List.mem_singleton] at he'; subst he'; exact h₁) he hr
    rw [get_funding_rate_for_coin, exchangeNames]
    rw [show (["binance", "bybit", "okx"] : List String)
        = ["binance"] ++ "bybit" :: ["okx"] from rfl, h]

/-- C4 witness: primary always raising, secondary answering `1`, gives
`1 * 100 = 100`. -/
theorem fallback_stops_at_first_truthy_witness :
    get_funding_rate_for_coin (fun e => if e = "bybit" then some 1 else none) = 100 := by
  rw [fallback_stops_at_first_truthy.2 (fun e => if e = "bybit" then some 1 else none) 1
    (by rfl) (by rfl) (by norm_num)]
  norm_num

/-! ## C5: funding-anomaly detection -/

/-- One entry of the list built by `detect_funding_anomalies`.  The
`timestamp` (wall-clock time of detection) and `description` (a formatted
string determined by `coin` and `funding_rate`) fields are not modelled. -/
structure Anomaly where
  coin : String
  funding_rate : ℚ
  severity : String
  direction : String
deriving DecidableEq

/-- The anomaly dict built for one `(coin, rate)` item (lines 271–278). -/
def mkAnomaly (coin : String) (rate : ℚ) : Anomaly :=
  { coin := coin
    funding_rate := rate
    severity := if |rate| > 1 then "HIGH" else "MEDIUM"
    direction := if rate > 0 then "BULLISH" else "BEARISH" }

/-- `detect_funding_anomalies` (lines 264–281) applied to an
already-computed funding-rate mapping: keep the entries with `|rate|`
strictly above the threshold, in mapping order, then
`sorted(…, key=lambda x: abs(x['funding_rate']), reverse=True)` — a stable
descending sort by absolute rate. -/
def detect_funding_anomalies (funding_rates : List (String × ℚ)) (threshold : ℚ) :
    List Anomaly :=
  ((funding_rates.filter (fun p => decide (|p.2| > threshold))).map
      (fun p => mkAnomaly p.1 p.2)).mergeSort
    (fun a b => decide (|b.funding_rate| ≤ |a.funding_rate|))

/-- C5: anomaly detection emits exactly the entries strictly above the
threshold (as a permutation of the filtered mapping), sorted by descending
absolute funding rate, each tagged HIGH iff `|rate| > 1.0` and BULLISH iff
`rate > 0`; on `{BTC: 0.3, ETH: -1.2, SOL: 0.6}` with threshold `0.5` it
returns `[ETH(HIGH, BEARISH), SOL(MEDIUM, BULLISH)]`. -/
theorem detect_funding_anomalies_spec :
    (∀ (funding_rates : List (String × ℚ)) (threshold : ℚ),
      List.Perm (detect_funding_anomalies funding_rates threshold)
        ((funding_rates.filter (fun p => decide (|p.2| > threshold))).map
          (fun p => mkAnomaly p.1 p.2)))
    ∧ (∀ (funding_rates : List (String × ℚ)) (threshold : ℚ),
      (detect_funding_anomalies funding_rates threshold).Pairwise
        (fun a b => |b.funding_rate| ≤ |a.funding_rate|))
    ∧ (∀ (funding_rates : List (String × ℚ)) (threshold : ℚ),
      ∀ a ∈ detect_funding_anomalies funding_rates threshold,
        |a.funding_rate| > threshold
        ∧ a.severity = (if |a.funding_rate| > 1 then "HIGH" else "MEDIUM")
        ∧ a.direction = (if a.funding_rate > 0 then "BULLISH" else "BEARISH"))
    ∧ detect_funding_anomalies [("BTC", 3/10), ("ETH", -(6/5)), ("SOL", 3/5)] (1/2)
        = [mkAnomaly "ETH" (-(6/5)), mkAnomaly "SOL" (3/5)]
    ∧ (mkAnomaly "ETH" (-(6/5))).severity = "HIGH"
    ∧ (mkAnomaly "ETH" (-(6/5))).direction = "BEARISH"
    ∧ (mkAnomaly "SOL" (3/5)).severity = "MEDIUM"
    ∧ (mkAnomaly "SOL" (3/5)).direction = "BULLISH" := by
  have habs1 : |(3/10 : ℚ)| = 3/10 := abs_of_pos (by norm_num)
  have habs2 : |(-(6/5) : ℚ)| = 6/5 := by rw [abs_neg]; exact abs_of_pos (by norm_num)
  have habs3 : |(3/5 : ℚ)| = 3/5 := abs_of_pos (by norm_num)
  have hmem : ∀ (funding_rates : List (String × ℚ)) (threshold : ℚ),
      ∀ a ∈ detect_funding_anomalies funding_rates threshold,
        |a.funding_rate| > threshold
        ∧ a.severity = (if |a.funding_rate| > 1 then "HIGH" else "MEDIUM")
        ∧ a.direction = (if a.funding_rate > 0 then "BULLISH" else "BEARISH") := by
    intro fr t a ha
    rw [detect_funding_anomalies, List.mem_mergeSort] at ha
    obtain ⟨p, hp, rfl⟩ := List.mem_map.mp ha
    have := List.of_mem_filter hp
    refine ⟨by simpa using this, rfl, rfl⟩
  refine ⟨?_, ?_, hmem, ?_, ?_, ?_, ?_, ?_⟩
  · intro fr t
    exact List.mergeSort_perm _ _
  · intro fr t
    have h := @List.sorted_mergeSort Anomaly
      (fun a b : Anomaly => decide (|b.funding_rate| ≤ |a.funding_rate|))
      (by intro a b c hab hbc
          simp only [decide_eq_true_eq] at hab hbc ⊢
          exact le_trans hbc hab)
      (by intro a b
          rcases le_total |b.funding_rate| |a.funding_rate| with h | h <;> simp [h])
      ((fr.filter (fun p => decide (|p.2| > t))).map (fun p => mkAnomaly p.1 p.2))
    exact h.imp (fun hab => of_decide_eq_true hab)
  · rw [detect_funding_anomalies]
    have hfm : (([("BTC", 3/10), ("ETH", -(6/5)), ("SOL", 3/5)] :
        List (String × ℚ)).filter (fun p => decide (|p.2| > (1/2 : ℚ)))).map
          (fun p => mkAnomaly p.1 p.2)
        = [mkAnomaly "ETH" (-(6/5)), mkAnomaly "SOL" (3/5)] := by
      norm_num [List.filter, habs1, habs2, habs3]
    rw [hfm]
    apply List.mergeSort_of_sorted
    refine List.pairwise_cons.mpr ⟨?_, List.pairwise_singleton _ _⟩
    intro b hb
    simp only [List.mem_singleton] at hb
    subst hb
    simp only [mkAnomaly]
    apply decide_eq_true
    rw [habs2, habs3]
    norm_num
  · simp only [mkAnomaly]
    rw [if_pos (by rw [habs2]; norm_num)]
  · simp only [mkAnomaly]
    rw [if_neg (by norm_num)]
  · simp only [mkAnomaly]
    rw [if_neg (by rw [habs3]; norm_num)]
  · simp only [mkAnomaly]
    rw [if_pos (by norm_num)]

/-- C5 witness: the ETH entry of the worked example satisfies the per-entry
guarantees of the detection theorem. -/
theorem detect_funding_anomalies_spec_witness :
    |(mkAnomaly "ETH" (-(6/5))).funding_rate| > (1/2 : ℚ)
    ∧ (mkAnomaly "ETH" (-(6/5))).severity
        = (if |(mkAnomaly "ETH" (-(6/5))).funding_rate| > 1 then "HIGH" else "MEDIUM")
    ∧ (mkAnomaly "ETH" (-(6/5))).direction
        = (if (mkAnomaly "ETH" (-(6/5))).funding_rate > 0 then "BULLISH" else "BEARISH") :=
  detect_funding_anomalies_spec.2.2.1 [("BTC", 3/10), ("ETH", -(6/5)), ("SOL", 3/5)] (1/2)
    (mkAnomaly "ETH" (-(6/5)))
    (by rw [detect_funding_anomalies_spec.2.2.2.1]; exact List.mem_cons_self _ _)

/-! ## C6: alert rate limiting (`enhanced_alerts.py`) -/

/-- One record of `self.alert_history`.  The extra payload fields
(`coin`, `rate`, `size`, `amount`) play no role in rate limiting and are
not modelled. -/
structure AlertRecord where
  type : String
  timestamp : ℚ
deriving DecidableEq

/-- `self.max_alerts_per_hour = 10`. -/
def max_alerts_per_hour : ℕ := 10

/-- `should_send_alert` (lines 163–187): prune the history with
`(now - t).seconds < 3600`, deny on the hourly cap, deny on a same-type
record with `(now - t).seconds < 900`, else allow.  Returns the decision and
the pruned history the method leaves in `self.alert_history`. -/
def should_send_alert (alert_history : List AlertRecord) (now : ℚ) (alert_type : String) :
    Bool × List AlertRecord :=
  let pruned := alert_history.filter
    (fun a => decide (timedeltaSeconds (now - a.timestamp) < 3600))
  if max_alerts_per_hour ≤ pruned.length then (false, pruned)
  else
    let recent := pruned.filter
      (fun a => decide (timedeltaSeconds (now - a.timestamp) < 900 ∧ a.type = alert_type))
    if 0 < recent.length then (false, pruned) else (true, pruned)

/-- C6: the prune uses `timedelta.seconds`, the elapsed time modulo one day,
so a record exactly one day old (86400 s ≥ 3600 s) survives the prune and
then suppresses the new alert as a "duplicate within 900 s" — whereas the
claimed algorithm would prune it away and allow. -/
theorem should_send_alert_keeps_day_old_record :
    should_send_alert [⟨"funding", 0⟩] 86400 "funding" = (false, [⟨"funding", 0⟩])
    ∧ ((86400 : ℚ) - 0 ≥ 3600) := by
  have h1 : timedeltaSeconds ((86400 : ℚ) - 0) = 0 := by
    rw [timedeltaSeconds]; norm_num
  have h2 : timedeltaSeconds (86400 : ℚ) = 0 := by
    rw [timedeltaSeconds]; norm_num
  constructor
  · simp only [should_send_alert, List.filter_cons, List.filter_nil, h1]
    norm_num [max_alerts_per_hour, h2]
  · norm_num

/-! ## C8: basis calculation -/

/-- `_calculate_basis_for_coin` (lines 307–331).  The single venue is
`self.exchanges['binance']` (no fallback).  `tickers = none` models a raised
`fetch_ticker`; otherwise the pair holds the futures and spot `'last'`
prices (`none` = missing/`None`).  The guard is Python's
`if futures_price and spot_price and spot_price > 0`. -/
def calculate_basis_for_coin (tickers : Option (Option ℚ × Option ℚ)) : ℚ :=
  match tickers with
  | none => 0
  | some (futures_price, spot_price) =>
    match futures_price, spot_price with
    | some f, some s => if f ≠ 0 ∧ s ≠ 0 ∧ 0 < s then (f - s) / s * 100 else 0
    | _, _ => 0

/-- C8 counterexample: with a negative futures price `-5` and spot `100`,
both prices truthy and spot positive, the code computes
`(-5 - 100) / 100 * 100 = -105 ≠ 0` although the futures price is
non-positive — the claim's "returns 0.0 whenever either price is
unavailable or non-positive" fails. -/
theorem basis_negative_futures_counterexample :
    calculate_basis_for_coin (some (some (-5), some 100)) = -105
    ∧ ((-5 : ℚ) ≤ 0) ∧ ((-105 : ℚ) ≠ 0) := by
  refine ⟨?_, by norm_num, by norm_num⟩
  simp only [calculate_basis_for_coin]
  norm_num

/-- C8 amended: basis is `(futures - spot) / spot * 100` from a single
venue's futures and spot prices; it returns `0.0` whenever the fetch raises,
either price is unavailable, the futures price is zero, or the spot price is
non-positive — in particular it never raises or divides by zero when the
spot price is `0`.  (A strictly negative futures price with positive spot
passes the truthiness guard and yields a non-zero basis.) -/
theorem basis_guard_amended :
    (calculate_basis_for_coin none = 0)
    ∧ (∀ sp, calculate_basis_for_coin (some (none, sp)) = 0)
    ∧ (∀ fp, calculate_basis_for_coin (some (fp, none)) = 0)
    ∧ (∀ sp, calculate_basis_for_coin (some (some 0, sp)) = 0)
    ∧ (∀ (fp : Option ℚ) (s : ℚ), s ≤ 0 → calculate_basis_for_coin (some (fp, some s)) = 0)
    ∧ (∀ (f s : ℚ), f ≠ 0 → 0 < s →
        calculate_basis_for_coin (some (some f, some s)) = (f - s) / s * 100) := by
  refine ⟨rfl, ?_, ?_, ?_, ?_, ?_⟩
  · intro sp; cases sp <;> rfl
  · intro fp; cases fp <;> rfl
  · intro sp
    cases sp with
    | none => rfl
    | some s => simp [calculate_basis_for_coin]
  · intro fp s hs
    cases fp with
    | none => rfl
    | some f =>
      have hns : ¬(0 < s) := not_lt.mpr hs
      simp [calculate_basis_for_coin, hns]
  · intro f s hf hs
    simp only [calculate_basis_for_coin]
    rw [if_pos ⟨hf, ne_of_gt hs, hs⟩]

/-- C8 witness: spot `0` yields `0.0` (no division), and futures `110` over
spot `100` yields a `10%` basis. -/
theorem basis_guard_amended_witness :
    calculate_basis_for_coin (some (some 5, some 0)) = 0
    ∧ calculate_basis_for_coin (some (some 110, some 100)) = 10 := by
  constructor
  · exact basis_guard_amended.2.2.2.2.1 (some 5) 0 le_rfl
  · rw [basis_guard_amended.2.2.2.2.2 110 100 (by norm_num) (by norm_num)]
    norm_num

/-! ## C9: simulated whale and liquidation records (`whale_tracker.py`,
`liquidation_tracker.py`) -/

/-- The `ActivityType` enum of `whale_tracker.py`. -/
inductive ActivityType where
  | openLong | openShort | closeLong | closeShort
  | addToLong | addToShort | reduceLong | reduceShort
  | liquidation | largeBuy | largeSell | largeTransfer
deriving DecidableEq

/-- The `WhaleActivity` dataclass. -/
structure WhaleActivity where
  timestamp : ℚ
  address : String
  symbol : String
  activity : ActivityType
  position_size : ℚ
  price : ℚ
  estimated_value : ℚ
  exchange : String
  pnl : Option ℚ := none
  confidence : ℚ := 1
deriving DecidableEq

/-- `self.current_prices` of `WhaleTrackerService`. -/
def current_prices : List (String × ℚ) :=
  [("BTC", 67500), ("ETH", 3850), ("SOL", 165), ("AVAX", 57/2), ("MATIC", 13/20),
   ("ARB", 28/25), ("OP", 57/20), ("DOGE", 4/25), ("ADA", 12/25), ("DOT", 36/5),
   ("LINK", 79/5), ("UNI", 89/10)]

/-- `self.current_prices.get(symbol, 100)` in
`generate_realistic_whale_data`. -/
def whalePrice (symbol : String) : ℚ := (dictLookup current_prices symbol).getD 100

/-- `list(ActivityType)`: the 12 enum members in declaration order. -/
def activityTypeList : List ActivityType :=
  [.openLong, .openShort, .closeLong, .closeShort,
   .addToLong, .addToShort, .reduceLong, .reduceShort,
   .liquidation, .largeBuy, .largeSell, .largeTransfer]

/-- `activity_weights = [0.25, 0.15, 0.25, 0.15, 0.1, 0.05, 0.03, 0.02]`
(line 175) — 8 probabilities. -/
def activity_weights : List ℚ :=
  [1/4, 3/20, 1/4, 3/20, 1/10, 1/20, 3/100, 1/50]

/-- `np.random.choice(a, p=p)`: numpy first validates that `a` and `p`
have the same size and raises `ValueError` otherwise; only then does it
draw.  A successful weighted draw is modelled by the pre-chosen index
`idx`. -/
def npRandomChoice {α : Type} (a : List α) (p : List ℚ) (idx : ℕ) : Except String α :=
  if a.length = p.length then
    match a[idx]? with
    | some x => Except.ok x
    | none => Except.error "IndexError"
  else Except.error "ValueError: a and p must have same size"

/-- The random draws consumed by one iteration of
`generate_realistic_whale_data` (lines 142–196): `hours = uniform(0, 24)`,
`minutes = randint(0, 59)`, the coin/address/exchange choices, the
per-branch position-size draw `sizeDraw`, the `uniform(100000, 5000000)`
fallback value draw, the index `activityIdx` the weighted
`np.random.choice` would select, and `confidence = uniform(0.7, 0.95)`. -/
structure WhaleDraw where
  hours : ℚ
  minutes : ℕ
  symbol : String
  address : String
  sizeDraw : ℚ
  valueDraw : ℚ
  activityIdx : ℕ
  exchange : String
  confidence : ℚ
deriving DecidableEq

/-- The record one iteration of `generate_realistic_whale_data` would
append, given the activity type the `np.random.choice` call returned:
timestamp `base_time - timedelta(hours=…, minutes=…)`; if
`position_size * price` falls below `$100k` the value is redrawn and the
size recomputed as `value / price`.  (The display formatting of the
address is not modelled.) -/
def mkWhaleActivity (base_time : ℚ) (dr : WhaleDraw) (activity : ActivityType) :
    WhaleActivity :=
  let price := whalePrice dr.symbol
  { timestamp := base_time - (dr.hours * 3600 + (dr.minutes : ℚ) * 60)
    address := dr.address
    symbol := dr.symbol
    activity := activity
    position_size := if dr.sizeDraw * price < 100000 then dr.valueDraw / price else dr.sizeDraw
    price := price
    estimated_value := if dr.sizeDraw * price < 100000 then dr.valueDraw else dr.sizeDraw * price
    exchange := dr.exchange
    confidence := dr.confidence }

/-- One iteration of the loop of `generate_realistic_whale_data`
(lines 142–196): the body calls
`np.random.choice(list(ActivityType), p=activity_weights)` (line 176)
before appending, and the function has no `try`/`except`, so a raise
aborts the whole call. -/
def whaleIteration (base_time : ℚ) (dr : WhaleDraw) : Except String WhaleActivity :=
  match npRandomChoice activityTypeList activity_weights dr.activityIdx with
  | Except.ok activity => Except.ok (mkWhaleActivity base_time dr activity)
  | Except.error e => Except.error e

/-- The `for i in range(count)` loop: one activity per draw, stopping with
the exception if an iteration raises. -/
def buildWhaleActivities (base_time : ℚ) : List WhaleDraw → Except String (List WhaleActivity)
  | [] => Except.ok []
  | dr :: rest =>
    match whaleIteration base_time dr with
    | Except.error e => Except.error e
    | Except.ok a =>
      match buildWhaleActivities base_time rest with
      | Except.error e => Except.error e
      | Except.ok as => Except.ok (a :: as)

/-- `generate_realistic_whale_data` (lines 134–200): run the loop, then
`activities.sort(key=lambda x: x.timestamp, reverse=True)`. -/
def generate_realistic_whale_data (base_time : ℚ) (draws : List WhaleDraw) :
    Except String (List WhaleActivity) :=
  match buildWhaleActivities base_time draws with
  | Except.error e => Except.error e
  | Except.ok as => Except.ok (as.mergeSort (fun a b => decide (b.timestamp ≤ a.timestamp)))

/-- The random draws of one iteration of `get_recent_liquidations`
(lines 77–107). -/
structure LiquidationDraw where
  coin : String
  side : String
  sizeDraw : ℚ
  minutes : ℕ
  basePriceDraw : ℚ
  priceVariation : ℚ
  exchange : String
  leverage : ℕ
deriving DecidableEq

/-- The `base_prices` table of `get_recent_liquidations` (lines 88–92). -/
def base_prices : List (String × ℚ) :=
  [("BTC", 67000), ("ETH", 2650), ("SOL", 178), ("AVAX", 35), ("MATIC", 17/20),
   ("ARB", 6/5), ("OP", 21/10), ("DOGE", 4/25), ("ADA", 9/20), ("DOT", 36/5),
   ("LINK", 29/2), ("UNI", 89/10)]

/-- One liquidation event record. -/
structure LiquidationEvent where
  timestamp : ℚ
  symbol : String
  side : String
  size : ℚ
  price : ℚ
  exchange : String
  leverage : ℕ
deriving DecidableEq

/-- The size interval drawn per coin (lines 82–85). -/
def liquidationSizeDrawInRange (coin : String) (d : ℚ) : Prop :=
  if coin = "BTC" ∨ coin = "ETH" then 50000 ≤ d ∧ d ≤ 2000000
  else 10000 ≤ d ∧ d ≤ 500000

/-- All draws of one liquidation iteration lie in the intervals the code
draws from: `minutes = randint(1, 60)`, the default base price
`uniform(1, 100)`, the price variation `uniform(-0.02, 0.02)`, leverage
`randint(5, 50)`. -/
def liquidationDrawValid (dr : LiquidationDraw) : Prop :=
  1 ≤ dr.minutes ∧ dr.minutes ≤ 60
  ∧ liquidationSizeDrawInRange dr.coin dr.sizeDraw
  ∧ 1 ≤ dr.basePriceDraw ∧ dr.basePriceDraw ≤ 100
  ∧ -(1/50) ≤ dr.priceVariation ∧ dr.priceVariation ≤ 1/50
  ∧ 5 ≤ dr.leverage ∧ dr.leverage ≤ 50

/-- One iteration body of `get_recent_liquidations`: timestamp
`current_time - timedelta(minutes=randint(1, 60))`, price
`base_price * (1 + variation)`. -/
def mkLiquidationEvent (current_time : ℚ) (dr : LiquidationDraw) : LiquidationEvent :=
  { timestamp := current_time - (dr.minutes : ℚ) * 60
    symbol := dr.coin ++ "/USDT"
    side := dr.side
    size := dr.sizeDraw
    price := (dictLookup base_prices dr.coin).getD dr.basePriceDraw * (1 + dr.priceVariation)
    exchange := dr.exchange
    leverage := dr.leverage }

/-- `get_recent_liquidations` (lines 72–111): one event per draw, then
sorted most recent first. -/
def get_recent_liquidations (current_time : ℚ) (draws : List LiquidationDraw) :
    List LiquidationEvent :=
  (draws.map (mkLiquidationEvent current_time)).mergeSort
    (fun a b => decide (b.timestamp ≤ a.timestamp))

/-- A whale draw with every value in the interval the code draws from:
`hours = 23.99`, `minutes = 59`, a 100-BTC position, activity index 0. -/
def whaleDrawW : WhaleDraw :=
  { hours := 2399/100, minutes := 59, symbol := "BTC",
    address := "0xf977814e90da44bfa03b6295a0616a897441acec", sizeDraw := 100,
    valueDraw := 200000, activityIdx := 0, exchange := "Binance",
    confidence := 9/10 }

/-- C9: the whale generator cannot produce any record.  Every iteration
calls `np.random.choice(list(ActivityType), p=activity_weights)` with the
12-member enum but only 8 probabilities; numpy rejects the size mismatch
with `ValueError` before the first record is appended, and the function
has no `try`/`except`, so `generate_realistic_whale_data` raises on every
call with at least one iteration — the claimed window and size invariants
quantify over whale records the program never yields.  (The liquidation
generator's records do satisfy the claimed invariants; see
`liquidation_records_in_window`.) -/
theorem whale_generator_always_raises :
    (∀ (base_time : ℚ) (dr : WhaleDraw) (rest : List WhaleDraw),
      generate_realistic_whale_data base_time (dr :: rest)
        = Except.error "ValueError: a and p must have same size")
    ∧ generate_realistic_whale_data 0 [whaleDrawW]
        = Except.error "ValueError: a and p must have same size"
    ∧ activityTypeList.length = 12
    ∧ activity_weights.length = 8 :=
  ⟨fun _ _ _ => rfl, rfl, rfl, rfl⟩

/-- The liquidation half of the simulated-data contract holds: every
record of `get_recent_liquidations` has its timestamp within the last 60
minutes and a non-negative size, for draws in the intervals the code draws
from. -/
theorem liquidation_records_in_window :
    ∀ (current_time : ℚ) (draws : List LiquidationDraw),
      (∀ dr ∈ draws, liquidationDrawValid dr) →
      ∀ e ∈ get_recent_liquidations current_time draws,
        current_time - 3600 ≤ e.timestamp ∧ e.timestamp ≤ current_time ∧ 0 ≤ e.size := by
  intro current_time draws hvalid e he
  rw [get_recent_liquidations, List.mem_mergeSort] at he
  obtain ⟨dr, hdr, rfl⟩ := List.mem_map.mp he
  obtain ⟨hm1, hm60, hsize, -, -, -, -, -, -⟩ := hvalid dr hdr
  have hm : (dr.minutes : ℚ) ≤ 60 := by exact_mod_cast hm60
  have hm0 : (1 : ℚ) ≤ (dr.minutes : ℚ) := by exact_mod_cast hm1
  refine ⟨?_, ?_, ?_⟩
  · simp only [mkLiquidationEvent]
    linarith
  · simp only [mkLiquidationEvent]
    linarith
  · simp only [mkLiquidationEvent]
    rw [liquidationSizeDrawInRange] at hsize
    split_ifs at hsize <;> linarith [hsize.1]

/-! ## C10: `get_liquidation_data` invariants -/

/-- One per-coin record of `get_liquidation_data` (lines 26–33). -/
structure LiquidationRecord where
  total : ℚ
  long_liquidations : ℚ
  short_liquidations : ℚ
  liquidation_ratio : ℚ
  avg_liquidation_size : ℚ
  liquidation_count : ℕ
deriving DecidableEq

/-- The random draws of one iteration of `get_liquidation_data`:
`longDraw = uniform(1, 50)`, `shortDraw = uniform(1, 30)` (both scaled by
`1e6`), `avgDraw = uniform(10000, 500000)`, `countDraw = randint(50, 500)`. -/
structure LiquidationDataDraw where
  longDraw : ℚ
  shortDraw : ℚ
  avgDraw : ℚ
  countDraw : ℕ
deriving DecidableEq

/-- The draws lie in the intervals the code draws from. -/
def liquidationDataDrawValid (dr : LiquidationDataDraw) : Prop :=
  1 ≤ dr.longDraw ∧ dr.longDraw ≤ 50 ∧ 1 ≤ dr.shortDraw ∧ dr.shortDraw ≤ 30
  ∧ 10000 ≤ dr.avgDraw ∧ dr.avgDraw ≤ 500000
  ∧ 50 ≤ dr.countDraw ∧ dr.countDraw ≤ 500

/-- The record built in the `try` branch (lines 23–33). -/
def mkLiquidationRecord (dr : LiquidationDataDraw) : LiquidationRecord :=
  let long_liquidations := dr.longDraw * 1000000
  let short_liquidations := dr.shortDraw * 1000000
  { total := long_liquidations + short_liquidations
    long_liquidations := long_liquidations
    short_liquidations := short_liquidations
    liquidation_ratio :=
      if long_liquidations + short_liquidations > 0 then
        long_liquidations / (long_liquidations + short_liquidations)
      else 1/2
    avg_liquidation_size := dr.avgDraw
    liquidation_count := dr.countDraw }

/-- The all-zero record written by the `except` branch (lines 37–44). -/
def liquidationFailureRecord : LiquidationRecord :=
  { total := 0, long_liquidations := 0, short_liquidations := 0,
    liquidation_ratio := 1/2, avg_liquidation_size := 0, liquidation_count := 0 }

/-- One iteration of the loop of `get_liquidation_data`: `outcome coin`
holds the draws, or `none` if the body raised. -/
def liqStep (outcome : String → Option LiquidationDataDraw)
    (acc : List (String × LiquidationRecord)) (coin : String) :
    List (String × LiquidationRecord) :=
  dictInsert acc coin
    (match outcome coin with
     | some dr => mkLiquidationRecord dr
     | none => liquidationFailureRecord)

/-- `get_liquidation_data` (lines 15–46). -/
def get_liquidation_data (outcome : String → Option LiquidationDataDraw)
    (coins : List String) : List (String × LiquidationRecord) :=
  coins.foldl (liqStep outcome) []

theorem foldl_liqStep_lookup_isSome (outcome : String → Option LiquidationDataDraw) :
    ∀ (l : List String) (acc : List (String × LiquidationRecord)) (c : String),
      (dictLookup acc c).isSome → (dictLookup (l.foldl (liqStep outcome) acc) c).isSome := by
  intro l
  induction l with
  | nil => intro acc c h; exact h
  | cons x xs ih =>
    intro acc c h
    exact ih _ c (dictLookup_isSome_dictInsert acc x c _ h)

theorem foldl_liqStep_mem_lookup (outcome : String → Option LiquidationDataDraw) :
    ∀ (l : List String) (acc : List (String × LiquidationRecord)) (c : String),
      c ∈ l → (dictLookup (l.foldl (liqStep outcome) acc) c).isSome := by
  intro l
  induction l with
  | nil => intro acc c h; cases h
  | cons x xs ih =>
    intro acc c h
    rcases List.mem_cons.mp h with rfl | h
    · apply foldl_liqStep_lookup_isSome outcome xs
      rw [liqStep, dictLookup_dictInsert_self]
      rfl
    · exact ih _ c h

theorem foldl_liqStep_all (outcome : String → Option LiquidationDataDraw)
    (P : LiquidationRecord → Prop)
    (hstep : ∀ coin, P (match outcome coin with
      | some dr => mkLiquidationRecord dr
      | none => liquidationFailureRecord)) :
    ∀ (l : List String) (acc : List (String × LiquidationRecord)),
      (∀ p ∈ acc, P p.2) → ∀ p ∈ l.foldl (liqStep outcome) acc, P p.2 := by
  intro l
  induction l with
  | nil => intro acc hacc p hp; exact hacc p hp
  | cons x xs ih =>
    intro acc hacc p hp
    refine ih _ ?_ p hp
    intro q hq
    rcases mem_dictInsert _ _ _ q hq with hq | rfl
    · exact hacc q hq
    · exact hstep x

theorem mkLiquidationRecord_invariants (dr : LiquidationDataDraw)
    (h : liquidationDataDrawValid dr) :
    (mkLiquidationRecord dr).total
      = (mkLiquidationRecord dr).long_liquidations
        + (mkLiquidationRecord dr).short_liquidations
    ∧ (mkLiquidationRecord dr).liquidation_ratio
      = (if (mkLiquidationRecord dr).total > 0 then
          (mkLiquidationRecord dr).long_liquidations / (mkLiquidationRecord dr).total
        else 1/2)
    ∧ 0 ≤ (mkLiquidationRecord dr).liquidation_ratio
    ∧ (mkLiquidationRecord dr).liquidation_ratio ≤ 1 := by
  obtain ⟨hl1, -, hs1, -, -, -, -, -⟩ := h
  have hl : (0:ℚ) < dr.longDraw * 1000000 := by linarith
  have hs : (0:ℚ) < dr.shortDraw * 1000000 := by linarith
  have htot : (0:ℚ) < dr.longDraw * 1000000 + dr.shortDraw * 1000000 := by linarith
  refine ⟨rfl, rfl, ?_, ?_⟩
  · simp only [mkLiquidationRecord]
    rw [if_pos htot]
    positivity
  · simp only [mkLiquidationRecord]
    rw [if_pos htot]
    rw [div_le_one htot]
    linarith

/-- C10: `get_liquidation_data` yields a record for every requested coin
(also on internal failure), and in every record `total` is the sum of long
and short liquidations and `liquidation_ratio` is `long / total` when
`total > 0` (`0.5` otherwise), hence lies in `[0, 1]`. -/
theorem get_liquidation_data_invariants (outcome : String → Option LiquidationDataDraw)
    (coins : List String)
    (hvalid : ∀ c dr, outcome c = some dr → liquidationDataDrawValid dr) :
    (∀ c ∈ coins, (dictLookup (get_liquidation_data outcome coins) c).isSome)
    ∧ ∀ p ∈ get_liquidation_data outcome coins,
        p.2.total = p.2.long_liquidations + p.2.short_liquidations
        ∧ p.2.liquidation_ratio
          = (if p.2.total > 0 then p.2.long_liquidations / p.2.total else 1/2)
        ∧ 0 ≤ p.2.liquidation_ratio ∧ p.2.liquidation_ratio ≤ 1 := by
  constructor
  · intro c hc
    exact foldl_liqStep_mem_lookup outcome coins [] c hc
  · apply foldl_liqStep_all outcome
      (fun r => r.total = r.long_liquidations + r.short_liquidations
        ∧ r.liquidation_ratio
          = (if r.total > 0 then r.long_liquidations / r.total else 1/2)
        ∧ 0 ≤ r.liquidation_ratio ∧ r.liquidation_ratio ≤ 1)
    · intro coin
      cases hoc : outcome coin with
      | some dr => simpa using mkLiquidationRecord_invariants dr (hvalid coin dr hoc)
      | none => norm_num [liquidationFailureRecord]
    · intro p hp; cases hp

/-- C10 witness: a single requested coin whose fetch raises still gets a
record, namely the failure record, which satisfies the invariants. -/
theorem get_liquidation_data_invariants_witness :
    (dictLookup (get_liquidation_data (fun _ => none) ["BTC"]) "BTC").isSome
    ∧ (liquidationFailureRecord.total
        = liquidationFailureRecord.long_liquidations
          + liquidationFailureRecord.short_liquidations
      ∧ liquidationFailureRecord.liquidation_ratio
        = (if liquidationFailureRecord.total > 0 then
            liquidationFailureRecord.long_liquidations / liquidationFailureRecord.total
          else 1/2)
      ∧ 0 ≤ liquidationFailureRecord.liquidation_ratio
      ∧ liquidationFailureRecord.liquidation_ratio ≤ 1) :=
  ⟨(get_liquidation_data_invariants (fun _ => none) ["BTC"]
      (fun _ _ h => nomatch h)).1 "BTC" (List.mem_singleton_self "BTC"),
   (get_liquidation_data_invariants (fun _ => none) ["BTC"]
      (fun _ _ h => nomatch h)).2 ("BTC", liquidationFailureRecord)
      (by rw [show get_liquidation_data (fun _ => none) ["BTC"]
            = [("BTC", liquidationFailureRecord)] from rfl]
          exact List.mem_singleton_self _)⟩

end CryptoDerivatives
